import Mathlib

/-!
Shallow embedding of the build/compilation pipeline of the
`dailyflow-tutor-api-worker` repository (the identity-keyed variant merge,
the fallback resolution, the three asset builders, the tolerant readers and
the topic-index generator), together with theorems settling the frozen
claims about it.

Modelling conventions:
* JavaScript strings are modelled as `List Char` (named `Str`), so that every
  operation (trim, split, comparison) is structural and kernel-evaluable.
  `String.localeCompare`-based orderings and the default `Array.sort` string
  order are both modelled as the lexicographic order on `List Char`.
* A JavaScript value that may or may not be a string (`typeof v === "string"`)
  is an `Option Str`; `none` stands for any non-string value (`undefined`,
  `null`, numbers, ...).  Likewise `Option` models "may not be an object /
  an array" where the code checks it.
* JavaScript `Array.prototype.sort` (stable since ES2019) with comparator
  `(a, b) => a.localeCompare(b)` is modelled as the stable
  `List.insertionSort` by the lexicographic order.
* Foreign engines that the code calls (`JSON.parse`, the regular-expression
  engine, `fs` reads) are uninterpreted parameters: a `parse`/`regexMatch`
  function argument, and file contents given as `Except` values so that the
  throwing/non-throwing behaviour of the callers is visible.
-/

namespace TutorWorker

/-- JS strings, modelled as lists of Unicode code points. -/
abbrev Str := List Char

/-- Conversion from Lean string literals to the model. -/
def str (s : String) : Str := s.data

/-- JS `String.prototype.trim`: strip leading and trailing whitespace. -/
def strTrim (s : Str) : Str :=
  ((s.dropWhile Char.isWhitespace).reverse.dropWhile Char.isWhitespace).reverse

/-- Source `firstNonEmptyString(values)`: the first element that is a string
with non-empty trim, returned trimmed; `""` when none qualifies.  `none`
entries model non-string values, which the `typeof` check skips. -/
def firstNonEmptyString : List (Option Str) → Str
  | [] => []
  | none :: rest => firstNonEmptyString rest
  | some s :: rest =>
      if (strTrim s).isEmpty then firstNonEmptyString rest else strTrim s

/-- A per-language pair of definite strings, as returned by
`extractLocalizedText` / `extractPseudocode` / `readTopicPseudocodeFallback`. -/
structure LocText where
  de : Str
  fa : Str
deriving DecidableEq, Repr

/-- A raw per-language JS object (`value.de` / `value.fa` may be non-strings,
modelled as `none`). -/
structure LocObj where
  de : Option Str
  fa : Option Str
deriving DecidableEq, Repr

/-- Source `extractLocalizedText(value)`: non-objects collapse to empty texts,
fields that are not strings collapse to `""`. -/
def extractLocalizedText : Option LocObj → LocText
  | none => ⟨[], []⟩
  | some v => ⟨v.de.getD [], v.fa.getD []⟩

/-- Source `extractPseudocode(value)`: same body as `extractLocalizedText`. -/
def extractPseudocode : Option LocObj → LocText
  | none => ⟨[], []⟩
  | some v => ⟨v.de.getD [], v.fa.getD []⟩

/-- A raw variant object from `variants.<lang>.v1.json`.  Fields the code
inspects; each is `Option`al because the source tolerates missing or
ill-typed fields.  `is_default` is the JS truthiness of `item.is_default`. -/
structure VariantItem where
  id : Option Str
  label : Option Str
  is_default : Bool
  pseudocode : Option LocObj
  explain : Option LocObj
deriving DecidableEq, Repr

/-- The two supported languages (`langs = ["de", "fa"]` in the source). -/
inductive Lang
  | de
  | fa
deriving DecidableEq, Repr

/-- A merged record produced by `mergeVariantRecords`:
`{ id, de: null, fa: null }` with the slots filled per language. -/
structure MergedRecord where
  id : Str
  de : Option VariantItem
  fa : Option VariantItem
deriving DecidableEq, Repr

/-- The usable id of a raw variant item: present iff `item.id` is a string
with non-empty trim; the trimmed value. -/
def usableVId (v : VariantItem) : Option Str :=
  match v.id with
  | none => none
  | some s => if (strTrim s).isEmpty then none else some (strTrim s)

/-- The usable id of a raw list entry (`none` models a non-object entry,
which the `typeof item !== "object"` guard skips). -/
def usableId : Option VariantItem → Option Str
  | none => none
  | some v => usableVId v

/-- `entry[lang] = item`. -/
def setSlot (lang : Lang) (r : MergedRecord) (v : VariantItem) : MergedRecord :=
  match lang with
  | .de => { r with de := some v }
  | .fa => { r with fa := some v }

/-- One step of the `ingest` loop in `mergeVariantRecords`: skip non-objects
and items without a usable id; otherwise update the existing record for that
id, or append a fresh record (first-seen order).  The ordered association
list models the source's parallel `order` array + `byId` map. -/
def ingestOne (lang : Lang) (recs : List MergedRecord) (item : Option VariantItem) :
    List MergedRecord :=
  match item with
  | none => recs
  | some v =>
    match usableVId v with
    | none => recs
    | some id =>
      if recs.any (fun r => r.id = id) then
        recs.map (fun r => if r.id = id then setSlot lang r v else r)
      else
        recs ++ [setSlot lang ⟨id, none, none⟩ v]

/-- Source `mergeVariantRecords(variantsDe, variantsFa)`: ingest the `de`
list fully, then the `fa` list. -/
def mergeVariantRecords (variantsDe variantsFa : List (Option VariantItem)) :
    List MergedRecord :=
  variantsFa.foldl (ingestOne .fa) (variantsDe.foldl (ingestOne .de) [])

/-- Spec-side helper: first-seen deduplication continuing from an already
`seen` set of keys. -/
def dedupFirstFrom (seen : List Str) : List Str → List Str
  | [] => []
  | x :: xs =>
      if x ∈ seen then dedupFirstFrom seen xs
      else x :: dedupFirstFrom (seen ++ [x]) xs

/-- Spec-side helper: keep the first occurrence of every key, in order. -/
def dedupFirst (xs : List Str) : List Str := dedupFirstFrom [] xs

/-- One output variant of the pseudocode asset builder. -/
structure VariantEntry where
  id : Str
  title : Str
  labels : LocText
  is_default : Bool
  pseudocode : Str
  explain_variant : LocText
deriving DecidableEq, Repr

/-- Lines 143–151 of the builder, factored out: the two per-language
pseudocode chains (`pseudocodeByLang`) and the preferred-language selection
(`preferredPseudo`) for one merged record. -/
def resolvedPseudo (lang : Lang) (fallbackPseudo : LocText) (record : MergedRecord) : Str :=
  let pseudoFromDe := extractPseudocode (record.de.bind (·.pseudocode))
  let pseudoFromFa := extractPseudocode (record.fa.bind (·.pseudocode))
  let pseudocodeByLang : LocText :=
    ⟨firstNonEmptyString [some pseudoFromDe.de, some pseudoFromFa.de,
        some fallbackPseudo.de, some fallbackPseudo.fa],
     firstNonEmptyString [some pseudoFromDe.fa, some pseudoFromFa.fa,
        some fallbackPseudo.fa, some fallbackPseudo.de]⟩
  match lang with
  | .fa => firstNonEmptyString [some pseudocodeByLang.fa, some pseudocodeByLang.de]
  | .de => firstNonEmptyString [some pseudocodeByLang.de, some pseudocodeByLang.fa]

/-- The body of the `for (const record of mergedVariants)` loop in
`buildPseudocodeAsset`: `none` models `continue` (empty id or empty resolved
pseudocode), otherwise the pushed variant entry. -/
def variantEntryOf (lang : Lang) (fallbackPseudo : LocText) (record : MergedRecord) :
    Option VariantEntry :=
  let deItem := record.de
  let faItem := record.fa
  let id := record.id
  if id.isEmpty then none
  else
    let labels : LocText :=
      ⟨firstNonEmptyString [deItem.bind (·.label), faItem.bind (·.label), some id],
       firstNonEmptyString [faItem.bind (·.label), deItem.bind (·.label), some id]⟩
    let explainFromDe := extractLocalizedText (deItem.bind (·.explain))
    let explainFromFa := extractLocalizedText (faItem.bind (·.explain))
    let explainVariant : LocText :=
      ⟨firstNonEmptyString [some explainFromDe.de, some explainFromFa.de],
       firstNonEmptyString [some explainFromDe.fa, some explainFromFa.fa]⟩
    let preferredPseudo := resolvedPseudo lang fallbackPseudo record
    if preferredPseudo.isEmpty then none
    else
      some
        { id := id,
          title := match lang with | .fa => labels.fa | .de => labels.de,
          labels := labels,
          is_default :=
            ((deItem.map (·.is_default)).getD false || (faItem.map (·.is_default)).getD false),
          pseudocode := preferredPseudo,
          explain_variant := explainVariant }

/-- The pseudocode asset.  The constant fields of the JSON payload
(`schema_name = "tutor_asset.pseudocode.v1"`, `version = "1.0"`,
`mode = "pseudocode"`) are the same on every asset and are omitted. -/
structure PseudocodeAsset where
  topic : Str
  lang : Lang
  title : Str
  selected_variant : Str
  pseudocode : Str
  variants : List VariantEntry
deriving DecidableEq, Repr

/-- The synthesized `"default"` variant used when no authored variant
survives. -/
def defaultVariantEntry (fallback : Str) : VariantEntry :=
  { id := str "default", title := str "Default",
    labels := ⟨str "Default", str "پیش‌فرض"⟩,
    is_default := true, pseudocode := fallback,
    explain_variant := ⟨[], []⟩ }

/-- `variantEntries.find((item) => item.is_default) ?? variantEntries[0]`. -/
def selectedOf (entries : List VariantEntry) : Option VariantEntry :=
  (entries.find? (fun e => e.is_default)).orElse (fun _ => entries.head?)

/-- The `fallback` string of the zero-survivors branch of
`buildPseudocodeAsset`:
`firstNonEmptyString([fallbackPseudo[lang], fallbackPseudo[otherLang]])`. -/
def directFallback (lang : Lang) (fallbackPseudo : LocText) : Str :=
  match lang with
  | .fa => firstNonEmptyString [some fallbackPseudo.fa, some fallbackPseudo.de]
  | .de => firstNonEmptyString [some fallbackPseudo.de, some fallbackPseudo.fa]

/-- The final `variantEntries` list of `buildPseudocodeAsset`: the surviving
entries of the record loop, or — when none survive — the synthesized
`"default"` entry (none at all when even the direct fallback is empty,
which is the source's `return null` path). -/
def pseudoEntries (lang : Lang) (mergedVariants : List MergedRecord)
    (fallbackPseudo : LocText) : List VariantEntry :=
  let variantEntries := mergedVariants.filterMap (variantEntryOf lang fallbackPseudo)
  if variantEntries.isEmpty then
    if (directFallback lang fallbackPseudo).isEmpty then []
    else [defaultVariantEntry (directFallback lang fallbackPseudo)]
  else variantEntries

/-- Source `buildPseudocodeAsset({topic, lang, title, mergedVariants,
fallbackPseudo})`.  `none` models the `return null` of the source (taken
exactly when no variant survives and the direct fallback is empty, in which
case the entry list is empty and `selectedOf` returns `none`). -/
def buildPseudocodeAsset (topic : Str) (lang : Lang) (title : Str)
    (mergedVariants : List MergedRecord) (fallbackPseudo : LocText) :
    Option PseudocodeAsset :=
  match selectedOf (pseudoEntries lang mergedVariants fallbackPseudo) with
  | none => none
  | some selected =>
      some
        { topic := topic, lang := lang, title := title,
          selected_variant := selected.id,
          pseudocode := selected.pseudocode,
          variants := pseudoEntries lang mergedVariants fallbackPseudo }

/-- The other language. -/
def Lang.other : Lang → Lang
  | .de => .fa
  | .fa => .de

/-- Field access on `LocText` by language. -/
def LocText.get (t : LocText) : Lang → Str
  | .de => t.de
  | .fa => t.fa

/-- The pseudocode fallback chain exactly as the claim states it (defined
from the spec's words, for comparison with `resolvedPseudo`): the authored
value for the requested language, then the authored value for the other
language, then the extractor's result for the requested language, then the
extractor's result for the other language.  The authored value of a merged
record for language `l` consults the `de`-list item's `l` field, then the
`fa`-list item's `l` field. -/
def claimedResolvedPseudo (lang : Lang) (fallbackPseudo : LocText) (record : MergedRecord) : Str :=
  let pseudoFromDe := extractPseudocode (record.de.bind (·.pseudocode))
  let pseudoFromFa := extractPseudocode (record.fa.bind (·.pseudocode))
  firstNonEmptyString
    [some (pseudoFromDe.get lang), some (pseudoFromFa.get lang),
     some (pseudoFromDe.get lang.other), some (pseudoFromFa.get lang.other),
     some (fallbackPseudo.get lang), some (fallbackPseudo.get lang.other)]

/-- The fallback chain the code actually implements, flattened: the authored
values for the requested language, then the extractor's result for the
requested language, then the extractor's result for the other language, then
the authored values for the other language. -/
def flatResolvedPseudo (lang : Lang) (fallbackPseudo : LocText) (record : MergedRecord) : Str :=
  let pseudoFromDe := extractPseudocode (record.de.bind (·.pseudocode))
  let pseudoFromFa := extractPseudocode (record.fa.bind (·.pseudocode))
  firstNonEmptyString
    [some (pseudoFromDe.get lang), some (pseudoFromFa.get lang),
     some (fallbackPseudo.get lang), some (fallbackPseudo.get lang.other),
     some (pseudoFromDe.get lang.other), some (pseudoFromFa.get lang.other)]

/-- A raw section object of an explain document. -/
structure ExplainSection where
  id : Option Str
  format : Option Str
  body : Option Str
deriving DecidableEq, Repr

/-- A raw explain document (`explain.<lang>.v1.json`).  `sections = none`
models a missing / non-array `sections` field; a `none` list entry models a
non-object section; a `none` order entry models a non-string id. -/
structure ExplainDoc where
  title : Option Str
  sections : Option (List (Option ExplainSection))
  sections_order : Option (List (Option Str))
  audience : Option Str
deriving DecidableEq, Repr

/-- A JS `Map`, restricted to the two operations the source uses, modelled by
its lookup function. -/
def mapEmpty {α : Type} : Str → Option α := fun _ => none

/-- JS `Map.prototype.set`: overwrite the entry for the key. -/
def mapSet {α : Type} (m : Str → Option α) (k : Str) (v : α) : Str → Option α :=
  fun i => if i = k then some v else m i

/-- JS `Map.prototype.get`. -/
def mapGet {α : Type} (m : Str → Option α) (k : Str) : Option α := m k

/-- A section tagged with its position in the filtered `sections` array.  The
tag models JS object identity: `JSON.parse` produces pairwise-distinct
objects for distinct array slots, and the source's `ordered.includes(section)`
and `byId` map compare/hold object references, which the position identifies
uniquely. -/
abbrev IndexedSection := Nat × ExplainSection

/-- Source `getExplainSectionsInOrder(explainDoc)`, on identity-tagged
sections.  Mirrors the source: filter to objects, filter the order list to
strings; with no usable order return the sections as they are; otherwise
build the (last-wins) `byId` map, emit the order list's hits, then append
every section not already contained in the result. -/
def getExplainSectionsInOrderIdx (doc : ExplainDoc) : List IndexedSection :=
  match doc.sections with
  | none => []
  | some rawSections =>
      let sections := (rawSections.filterMap (fun s => s)).enum
      let idOrder := (doc.sections_order.getD []).filterMap (fun s => s)
      if idOrder.isEmpty then sections
      else
        let byId := sections.foldl (fun m p =>
          match p.2.id with
          | some i => mapSet m i p
          | none => m) mapEmpty
        let ordered := idOrder.filterMap (fun i => mapGet byId i)
        sections.foldl
          (fun acc p => if acc.any (fun q => q = p) then acc else acc ++ [p]) ordered

/-- Source `getExplainSectionsInOrder(explainDoc)` (identity tags dropped). -/
def getExplainSectionsInOrder (doc : ExplainDoc) : List ExplainSection :=
  (getExplainSectionsInOrderIdx doc).map (fun p => p.2)

/-- The object sections of an explain document (the source's `sections`
filter). -/
def objectSections (doc : ExplainDoc) : List ExplainSection :=
  (doc.sections.getD []).filterMap (fun s => s)

/-- The usable (string-typed) entries of `sections_order`. -/
def usableOrder (doc : ExplainDoc) : List Str :=
  (doc.sections_order.getD []).filterMap (fun s => s)

/-- Spec-side: the section an order id places — the last section whose `id`
matches (the source's forward-built `byId` map keeps the last write per
key). -/
def lastWithId (sections : List IndexedSection) (i : Str) : Option IndexedSection :=
  sections.reverse.find? (fun p => p.2.id = some i)

/-- Spec-side: the sections placed by the order list, in the order list's
order; unmatched ids are skipped. -/
def placedSections (doc : ExplainDoc) : List IndexedSection :=
  (usableOrder doc).filterMap (fun i => lastWithId (objectSections doc).enum i)

/-- Spec-side formulation of the ordering contract (from the spec's words):
with a usable order list, the placed sections in order-list order, followed
by all sections not placed, in original document order; otherwise the
original order. -/
def specOrderedSectionsIdx (doc : ExplainDoc) : List IndexedSection :=
  if usableOrder doc = [] then (objectSections doc).enum
  else
    placedSections doc ++
      (objectSections doc).enum.filter
        (fun p => !(placedSections doc).any (fun q => q = p))

/-- One `{kind, text}` block of the explain asset. -/
structure ExplainBlock where
  kind : Str
  text : Str
deriving DecidableEq, Repr

/-- The explain asset (constant fields `schema_name = "tutor_asset.explain.v1"`,
`version = "1.0"`, `mode = "explain"` omitted). -/
structure ExplainAsset where
  topic : Str
  lang : Lang
  title : Str
  summary : Str
  blocks : List ExplainBlock
deriving DecidableEq, Repr

/-- The `kind` of a block:
`(typeof id === "string" && id.trim()) || (typeof format === "string" && format.trim()) || "text"`
(JS `||` keeps the trimmed value when it is truthy). -/
def blockKind (s : ExplainSection) : Str :=
  let fromFormat :=
    match s.format with
    | some f => if (strTrim f).isEmpty then str "text" else strTrim f
    | none => str "text"
  match s.id with
  | some i => if (strTrim i).isEmpty then fromFormat else strTrim i
  | none => fromFormat

/-- The block mapped from one section (`text` is `""` for a non-string body). -/
def blockOfSection (s : ExplainSection) : ExplainBlock :=
  ⟨blockKind s, s.body.getD []⟩

/-- Source `buildExplainAsset({topic, lang, title, explainDoc})`. -/
def buildExplainAsset (topic : Str) (lang : Lang) (title : Str) (explainDoc : ExplainDoc) :
    ExplainAsset :=
  let sections := getExplainSectionsInOrder explainDoc
  let blocks := (sections.map blockOfSection).filter (fun b => !(strTrim b.text).isEmpty)
  let definitionSection := sections.find? (fun s => s.id = some (str "definition"))
  let summary := firstNonEmptyString
    [definitionSection.bind (fun s => s.body), (blocks.head?).map (fun b => b.text),
     explainDoc.audience]
  { topic := topic, lang := lang, title := title, summary := summary, blocks := blocks }

/-- A raw exam question object.  The elements of `choices` are never
inspected by the code (only the array's presence and length are), so they
are modelled as strings; `choices = none` models a non-array value. -/
structure ExamQuestion where
  id : Option Str
  task : Option Str
  prompt : Option Str
  choices : Option (List Str)
  answer : Option Str
  expected : Option Str
  solution : Option Str
deriving DecidableEq, Repr

/-- A normalized question as produced by `mapExamQuestion`.  `choices = none`
models the absence of the optional `choices` key. -/
structure MappedQuestion where
  id : Str
  type : Str
  prompt : Str
  answer : Str
  explain_de : Str
  explain_fa : Str
  choices : Option (List Str)
deriving DecidableEq, Repr

/-- Source `mapExamQuestion(question, lang)`; a `none` question models a
non-object entry of the raw questions array (all its field reads yield
`undefined`). -/
def mapExamQuestion (question : Option ExamQuestion) (lang : Lang) : MappedQuestion :=
  let id := firstNonEmptyString [question.bind (fun q => q.id)]
  let prompt := firstNonEmptyString
    [question.bind (fun q => q.task), question.bind (fun q => q.prompt)]
  let isMc :=
    match question.bind (fun q => q.choices) with
    | some cs => !cs.isEmpty
    | none => false
  let answer := firstNonEmptyString
    [question.bind (fun q => q.answer), question.bind (fun q => q.expected),
     question.bind (fun q => q.solution)]
  { id := id,
    type := if isMc then str "mc" else str "open",
    prompt := prompt,
    answer := answer,
    explain_de :=
      if lang = .de then
        firstNonEmptyString [question.bind (fun q => q.solution), question.bind (fun q => q.expected)]
      else [],
    explain_fa :=
      if lang = .fa then
        firstNonEmptyString [question.bind (fun q => q.solution), question.bind (fun q => q.expected)]
      else [],
    choices := if isMc then question.bind (fun q => q.choices) else none }

/-- A raw exam document (`exam.<lang>.v1.json`). -/
structure ExamDoc where
  questions : Option (List (Option ExamQuestion))
deriving DecidableEq, Repr

/-- The exam asset (constant fields `schema_name = "tutor_asset.exam.v1"`,
`version = "1.0"`, `mode = "exam"` omitted). -/
structure ExamAsset where
  topic : Str
  lang : Lang
  title : Str
  questions : List MappedQuestion
deriving DecidableEq, Repr

/-- The comparator order used by `.sort((a, b) => a.id.localeCompare(b.id))`,
modelled as the lexicographic order on the ids. -/
def qIdLe (a b : MappedQuestion) : Prop := a.id ≤ b.id

instance : DecidableRel qIdLe := fun a b => inferInstanceAs (Decidable (a.id ≤ b.id))

instance : IsTotal MappedQuestion qIdLe := ⟨fun a b => le_total a.id b.id⟩

instance : IsTrans MappedQuestion qIdLe := ⟨fun _ _ _ hab hbc => le_trans hab hbc⟩

/-- Source `buildExamAsset({topic, lang, title, examDoc})`.  The stable JS
`Array.prototype.sort` is modelled by the stable `List.insertionSort`. -/
def buildExamAsset (topic : Str) (lang : Lang) (title : Str) (examDoc : Option ExamDoc) :
    ExamAsset :=
  let questionsRaw := (examDoc.bind (fun d => d.questions)).getD []
  let questions :=
    List.insertionSort qIdLe
      ((questionsRaw.map (fun q => mapExamQuestion q lang)).filter
        (fun q => !q.id.isEmpty && !q.prompt.isEmpty))
  { topic := topic, lang := lang, title := title, questions := questions }

/-- JS `fileName.split(".")` (the result is never empty; empty components are
kept). -/
def splitOnDot : Str → List Str
  | [] => [[]]
  | c :: rest =>
      match splitOnDot rest with
      | [] => [[]]
      | p :: ps => if c = Char.ofNat 46 then [] :: p :: ps else (c :: p) :: ps

/-- Source `extractTuple(fileName)` of `scripts/generate_topics.js`: exactly
four dot-separated components, all non-empty, the fourth equal to `"json"`. -/
def extractTuple (fileName : Str) : Option (Str × Str × Str) :=
  match splitOnDot fileName with
  | [topic, lang, mode, ext] =>
      if topic = [] ∨ lang = [] ∨ mode = [] ∨ ext ≠ str "json" then none
      else some (topic, lang, mode)
  | _ => none

/-- The `topics` field computed by `main` of `scripts/generate_topics.js`
from the output directory's file names: insert each parsable topic into a
`Set` (insertion-ordered, deduplicating), then `Array.from(topics).sort()`
(default string sort, modelled as the lexicographic order). -/
def generatedTopicsField (fileNames : List Str) : List Str :=
  let topics := fileNames.foldl
    (fun acc name =>
      match extractTuple name with
      | some t => if acc.any (fun x => x = t.1) then acc else acc ++ [t.1]
      | none => acc) []
  List.insertionSort (fun a b : Str => a ≤ b) topics

/-- Source `readJsonIfExists(path)`.  The filesystem read and `JSON.parse`
are foreign engines: `readFileResult` is the outcome of
`readFile(path, "utf8")` and `parse` embeds `JSON.parse` at the call site's
document type; `Except.error` models a thrown exception.  The source's
`try/catch` collapses both failure modes to `null` (`none`). -/
def readJsonIfExists {α : Type} (readFileResult : Except Str Str)
    (parse : Str → Except Str α) : Option α :=
  match readFileResult with
  | .error _ => none
  | .ok raw =>
      match parse raw with
      | .error _ => none
      | .ok doc => some doc

/-- One scan of JS `String.prototype.replaceAll` with a non-empty pattern:
left to right, non-overlapping, the replacement is not rescanned.  The fuel
argument makes the recursion structural; each step consumes at least one
character, so `s.length` fuel suffices. -/
def replaceAllGo (pattern replacement : Str) : Nat → Str → Str
  | 0, s => s
  | _, [] => []
  | fuel + 1, c :: rest =>
      if pattern ≠ [] ∧ pattern.isPrefixOf (c :: rest) then
        replacement ++ replaceAllGo pattern replacement fuel ((c :: rest).drop pattern.length)
      else
        c :: replaceAllGo pattern replacement fuel rest

/-- JS `s.replaceAll(pattern, replacement)` for string patterns. -/
def replaceAll (pattern replacement s : Str) : Str :=
  replaceAllGo pattern replacement s.length s

/-- Source `decodeEscapedPythonString(value)`: rewrite the escape sequences
`\r\n`, `\n`, `\t`, `\'`, `\"` (in that order) to their characters, then
trim. -/
def decodeEscapedPythonString (value : Str) : Str :=
  let bs : Char := Char.ofNat 92
  let sq : Char := Char.ofNat 39
  let dq : Char := Char.ofNat 34
  strTrim
    (replaceAll [bs, dq] [dq]
      (replaceAll [bs, sq] [sq]
        (replaceAll [bs, 't'] ['\t']
          (replaceAll [bs, 'n'] ['\n']
            (replaceAll [bs, 'r', bs, 'n'] ['\n'] value)))))

/-- Source `extractPythonFunctionReturn(source, functionName)`.  The regular
expression engine is foreign: `regexMatch source functionName` is `none`
when `source.match(pattern)` is `null`, and `some g` when the pattern
matches, `g` being capture group 2 (`none` inside models an `undefined`
group, which the source's `?? ""` replaces by the empty string). -/
def extractPythonFunctionReturn (regexMatch : Str → Str → Option (Option Str))
    (source functionName : Str) : Str :=
  match regexMatch source functionName with
  | none => []
  | some g => decodeEscapedPythonString (g.getD [])

/-- Source `readTopicPseudocodeFallback(topic)`: `readFileResult` is the
outcome of reading the topic's legacy Python module; a thrown read error
yields the empty pair via the `catch`. -/
def readTopicPseudocodeFallback (regexMatch : Str → Str → Option (Option Str))
    (readFileResult : Except Str Str) : LocText :=
  match readFileResult with
  | .error _ => ⟨[], []⟩
  | .ok source =>
      ⟨extractPythonFunctionReturn regexMatch source (str "generate_pseudocode_de"),
       extractPythonFunctionReturn regexMatch source (str "generate_pseudocode_fa")⟩

/-! ### General lemmas about the string model -/

theorem strTrim_eq_rdropWhile (s : Str) :
    strTrim s = List.rdropWhile Char.isWhitespace (List.dropWhile Char.isWhitespace s) := rfl

theorem strTrim_strTrim (s : Str) : strTrim (strTrim s) = strTrim s := by
  rw [strTrim_eq_rdropWhile, strTrim_eq_rdropWhile]
  have h1 : List.dropWhile Char.isWhitespace
      (List.rdropWhile Char.isWhitespace (List.dropWhile Char.isWhitespace s))
      = List.rdropWhile Char.isWhitespace (List.dropWhile Char.isWhitespace s) := by
    rw [List.dropWhile_eq_self_iff]
    intro hl
    have hpre := List.rdropWhile_prefix Char.isWhitespace
      (List.dropWhile Char.isWhitespace s)
    have hlen : 0 < (List.dropWhile Char.isWhitespace s).length :=
      lt_of_lt_of_le hl hpre.length_le
    rw [List.get_eq_getElem, List.IsPrefix.getElem hpre hl]
    have h2 := List.dropWhile_get_zero_not Char.isWhitespace s hlen
    rw [List.get_eq_getElem] at h2
    exact h2
  rw [h1, List.rdropWhile_idempotent]

/-- The outputs of `firstNonEmptyString` are trimmed. -/
theorem firstNonEmptyString_trimmed (vs : List (Option Str)) :
    strTrim (firstNonEmptyString vs) = firstNonEmptyString vs := by
  induction vs with
  | nil => rfl
  | cons v rest ih =>
    cases v with
    | none => simpa only [firstNonEmptyString] using ih
    | some s =>
      simp only [firstNonEmptyString]
      by_cases h : (strTrim s).isEmpty = true
      · simp only [if_pos h]; exact ih
      · simp only [if_neg h]; exact strTrim_strTrim s

theorem firstNonEmptyString_append (xs ys : List (Option Str)) :
    firstNonEmptyString (xs ++ ys) =
      if (firstNonEmptyString xs).isEmpty then firstNonEmptyString ys
      else firstNonEmptyString xs := by
  induction xs with
  | nil => simp [firstNonEmptyString]
  | cons v rest ih =>
    cases v with
    | none => simpa only [List.cons_append, firstNonEmptyString] using ih
    | some s =>
      simp only [List.cons_append, firstNonEmptyString]
      by_cases h : (strTrim s).isEmpty = true
      · simp only [if_pos h]; exact ih
      · simp only [if_neg h]

/-- Collapsing a nested `firstNonEmptyString` into the overall chain. -/
theorem firstNonEmptyString_nested (xs rest : List (Option Str)) :
    firstNonEmptyString (some (firstNonEmptyString xs) :: rest) =
      firstNonEmptyString (xs ++ rest) := by
  rw [firstNonEmptyString_append]
  simp only [firstNonEmptyString, firstNonEmptyString_trimmed]

theorem firstNonEmptyString_eq_nil_iff (vs : List (Option Str)) :
    firstNonEmptyString vs = [] ↔ ∀ s : Str, some s ∈ vs → strTrim s = [] := by
  induction vs with
  | nil => simp [firstNonEmptyString]
  | cons v rest ih =>
    cases v with
    | none =>
      simp only [firstNonEmptyString, ih]
      constructor
      · intro h s hs
        rcases List.mem_cons.mp hs with h1 | h1
        · exact absurd h1 (by simp)
        · exact h s h1
      · intro h s hs
        exact h s (List.mem_cons_of_mem _ hs)
    | some s =>
      simp only [firstNonEmptyString]
      by_cases h : (strTrim s).isEmpty = true
      · have hnil : strTrim s = [] := List.isEmpty_iff.mp h
        simp only [if_pos h, ih]
        constructor
        · intro hall t ht
          rcases List.mem_cons.mp ht with h1 | h1
          · obtain rfl : t = s := Option.some.inj h1
            exact hnil
          · exact hall t h1
        · intro hall t ht
          exact hall t (List.mem_cons_of_mem _ ht)
      · simp only [if_neg h]
        constructor
        · intro hc
          exact absurd (List.isEmpty_iff.mpr hc) h
        · intro hall
          exact absurd (List.isEmpty_iff.mpr (hall s (List.mem_cons_self _ _))) h

/-! ### First-seen deduplication lemmas -/

theorem dedupFirstFrom_append (s xs ys : List Str) :
    dedupFirstFrom s (xs ++ ys) =
      dedupFirstFrom s xs ++ dedupFirstFrom (s ++ dedupFirstFrom s xs) ys := by
  induction xs generalizing s with
  | nil => simp [dedupFirstFrom]
  | cons x xs ih =>
    by_cases h : x ∈ s
    · simp only [List.cons_append, dedupFirstFrom, if_pos h]
      exact ih s
    · simp only [List.cons_append, dedupFirstFrom, if_neg h]
      have hxy : xs.append ys = xs ++ ys := rfl
      rw [hxy, ih (s ++ [x])]
      simp [List.append_assoc]

theorem mem_dedupFirstFrom (s xs : List Str) (a : Str) :
    a ∈ dedupFirstFrom s xs ↔ a ∈ xs ∧ a ∉ s := by
  induction xs generalizing s with
  | nil => simp [dedupFirstFrom]
  | cons x xs ih =>
    by_cases h : x ∈ s
    · simp only [dedupFirstFrom, if_pos h, ih]
      constructor
      · rintro ⟨hm, hn⟩
        exact ⟨List.mem_cons_of_mem _ hm, hn⟩
      · rintro ⟨hm, hn⟩
        rcases List.mem_cons.mp hm with rfl | hm
        · exact absurd h hn
        · exact ⟨hm, hn⟩
    · simp only [dedupFirstFrom, if_neg h, List.mem_cons, ih]
      constructor
      · rintro (rfl | ⟨hm, hn⟩)
        · exact ⟨Or.inl rfl, h⟩
        · exact ⟨Or.inr hm, fun hc => hn (List.mem_append.mpr (Or.inl hc))⟩
      · rintro ⟨rfl | hm, hn⟩
        · exact Or.inl rfl
        · by_cases hax : a = x
          · exact Or.inl hax
          · refine Or.inr ⟨hm, fun hc => ?_⟩
            rcases List.mem_append.mp hc with hs | hx
            · exact hn hs
            · exact hax (List.mem_singleton.mp hx)

theorem nodup_dedupFirstFrom (s xs : List Str) :
    (dedupFirstFrom s xs).Nodup := by
  induction xs generalizing s with
  | nil => simp [dedupFirstFrom]
  | cons x xs ih =>
    by_cases h : x ∈ s
    · simp only [dedupFirstFrom, if_pos h]
      exact ih s
    · simp only [dedupFirstFrom, if_neg h]
      refine List.nodup_cons.mpr ⟨?_, ih (s ++ [x])⟩
      intro hc
      rcases (mem_dedupFirstFrom _ _ _).mp hc with ⟨_, hn⟩
      exact hn (by simp)

/-! ### The variant merger (C2) -/

theorem id_setSlot (lang : Lang) (r : MergedRecord) (v : VariantItem) :
    (setSlot lang r v).id = r.id := by
  cases lang <;> rfl

theorem any_id_eq_mem (recs : List MergedRecord) (id : Str) :
    (recs.any (fun r => r.id = id)) = true ↔ id ∈ recs.map (fun r => r.id) := by
  simp [List.any_eq_true, List.mem_map]

theorem ingestOne_of_usableId_none (lang : Lang) (recs : List MergedRecord)
    (item : Option VariantItem) (h : usableId item = none) :
    ingestOne lang recs item = recs := by
  cases item with
  | none => rfl
  | some v =>
    simp only [usableId] at h
    simp [ingestOne, h]

theorem map_id_ingestOne (lang : Lang) (recs : List MergedRecord)
    (item : Option VariantItem) (id : Str) (h : usableId item = some id) :
    (ingestOne lang recs item).map (fun r => r.id) =
      if id ∈ recs.map (fun r => r.id) then recs.map (fun r => r.id)
      else recs.map (fun r => r.id) ++ [id] := by
  cases item with
  | none => simp [usableId] at h
  | some v =>
    simp only [usableId] at h
    simp only [ingestOne, h]
    by_cases hmem : id ∈ recs.map (fun r => r.id)
    · rw [if_pos ((any_id_eq_mem recs id).mpr hmem), if_pos hmem, List.map_map]
      apply List.map_congr_left
      intro r _
      simp only [Function.comp_apply]
      split
      · exact id_setSlot lang r v
      · rfl
    · rw [if_neg (fun hc => hmem ((any_id_eq_mem recs id).mp hc)), if_neg hmem,
        List.map_append]
      simp [id_setSlot]

theorem map_id_foldl_ingest (lang : Lang) (items : List (Option VariantItem))
    (recs : List MergedRecord) :
    (items.foldl (ingestOne lang) recs).map (fun r => r.id) =
      recs.map (fun r => r.id) ++
        dedupFirstFrom (recs.map (fun r => r.id)) (items.filterMap usableId) := by
  induction items generalizing recs with
  | nil => simp [dedupFirstFrom]
  | cons item items ih =>
    simp only [List.foldl_cons, List.filterMap_cons]
    cases h : usableId item with
    | none =>
      rw [ingestOne_of_usableId_none lang recs item h, ih]
    | some id =>
      have hids := map_id_ingestOne lang recs item id h
      simp only [dedupFirstFrom]
      by_cases hmem : id ∈ recs.map (fun r => r.id)
      · rw [if_pos hmem] at hids
        rw [ih, hids, if_pos hmem]
      · rw [if_neg hmem] at hids
        rw [ih, hids, if_neg hmem]
        simp [List.append_assoc]

/-- C2: for every pair of per-language variant lists, the ids of the merged
result are exactly the first-seen deduplication of the usable (non-empty
trimmed) ids of the two lists, the `de` list scanned fully before the `fa`
list; consequently the ids are pairwise distinct (exactly one record per
distinct id, no duplicates, no omissions) and a record with a given id exists
exactly when some item of either list carries that usable id; items without a
usable id contribute nothing. -/
theorem mergeVariantRecords_ids (variantsDe variantsFa : List (Option VariantItem)) :
    (mergeVariantRecords variantsDe variantsFa).map (fun r => r.id) =
        dedupFirst ((variantsDe ++ variantsFa).filterMap usableId)
    ∧ ((mergeVariantRecords variantsDe variantsFa).map (fun r => r.id)).Nodup
    ∧ ∀ i : Str, (∃ r ∈ mergeVariantRecords variantsDe variantsFa, r.id = i)
        ↔ i ∈ (variantsDe ++ variantsFa).filterMap usableId := by
  have hmain : (mergeVariantRecords variantsDe variantsFa).map (fun r => r.id) =
      dedupFirst ((variantsDe ++ variantsFa).filterMap usableId) := by
    have h1 := map_id_foldl_ingest .de variantsDe []
    simp only [List.map_nil, List.nil_append] at h1
    have h2 := map_id_foldl_ingest .fa variantsFa (variantsDe.foldl (ingestOne .de) [])
    simp only [mergeVariantRecords, dedupFirst]
    rw [h2, h1, List.filterMap_append, dedupFirstFrom_append]
    simp
  refine ⟨hmain, ?_, ?_⟩
  · rw [hmain]
    exact nodup_dedupFirstFrom _ _
  · intro i
    have hm : i ∈ (mergeVariantRecords variantsDe variantsFa).map (fun r => r.id)
        ↔ i ∈ (variantsDe ++ variantsFa).filterMap usableId := by
      rw [hmain]
      simp only [dedupFirst]
      rw [mem_dedupFirstFrom]
      simp
    simpa [List.mem_map] using hm

/-! ### The pseudocode fallback chain (C1) -/

theorem firstNonEmptyString_append_right_nil (xs ys : List (Option Str))
    (h : firstNonEmptyString ys = []) :
    firstNonEmptyString (xs ++ ys) = firstNonEmptyString xs := by
  rw [firstNonEmptyString_append, h]
  by_cases hx : (firstNonEmptyString xs).isEmpty = true
  · rw [if_pos hx]
    exact (List.isEmpty_iff.mp hx).symm
  · rw [if_neg hx]

/-- The nested two-chain selection of the source collapses to one flat
six-candidate chain. -/
theorem chain_collapse (a1 a2 f1 f2 b1 b2 : Option Str) :
    firstNonEmptyString [some (firstNonEmptyString [a1, a2, f1, f2]),
        some (firstNonEmptyString [b1, b2, f2, f1])] =
      firstNonEmptyString [a1, a2, f1, f2, b1, b2] := by
  have hsplit : ([a1, a2, f1, f2, b1, b2] : List (Option Str))
      = [a1, a2, f1, f2] ++ [b1, b2] := rfl
  rw [firstNonEmptyString_nested, firstNonEmptyString_append, hsplit,
    firstNonEmptyString_append]
  by_cases hA : (firstNonEmptyString [a1, a2, f1, f2]).isEmpty = true
  · rw [if_pos hA, if_pos hA]
    have hall := (firstNonEmptyString_eq_nil_iff [a1, a2, f1, f2]).mp
      (List.isEmpty_iff.mp hA)
    have hf : firstNonEmptyString [f2, f1] = [] := by
      rw [firstNonEmptyString_eq_nil_iff]
      intro t ht
      rcases List.mem_cons.mp ht with h2 | h2
      · exact hall t (by rw [h2]; simp)
      · rcases List.mem_cons.mp h2 with h3 | h3
        · exact hall t (by rw [h3]; simp)
        · simp at h3
    have hB : firstNonEmptyString [b1, b2, f2, f1] = firstNonEmptyString [b1, b2] := by
      have hsplit2 : ([b1, b2, f2, f1] : List (Option Str)) = [b1, b2] ++ [f2, f1] := rfl
      rw [hsplit2]
      exact firstNonEmptyString_append_right_nil _ _ hf
    rw [hB]
    have hnest := firstNonEmptyString_nested [b1, b2] []
    simpa using hnest
  · rw [if_neg hA, if_neg hA]

/-- C1 (amended): for every merged variant record and requested language,
the resolved pseudocode text is the first non-empty candidate of the flat
chain `flatResolvedPseudo`: the authored values for the requested language
(`de`-list item's field first, then the `fa`-list item's), then the
extractor's result for the requested language, then the extractor's result
for the other language, and only then the authored values for the other
language.  (The spec's chain placed the authored other-language values ahead
of the extractor results; the code consults the extractor first.)  The
spec's particular consequence still holds: when no target-language content
exists anywhere, a non-empty authored other-language text is used. -/
theorem resolvedPseudo_eq_flat (lang : Lang) (fallbackPseudo : LocText)
    (record : MergedRecord) :
    resolvedPseudo lang fallbackPseudo record =
      flatResolvedPseudo lang fallbackPseudo record := by
  cases lang
  · simp only [resolvedPseudo, flatResolvedPseudo, LocText.get, Lang.other]
    exact chain_collapse _ _ _ _ _ _
  · simp only [resolvedPseudo, flatResolvedPseudo, LocText.get, Lang.other]
    exact chain_collapse _ _ _ _ _ _

/-- C1 counterexample: a merged record whose `de`-authored item has empty
`de` pseudocode and non-empty `fa` pseudocode (`"X"`), with an extractor
result `"E"` for `de`.  The claim's chain (authored `de`, then authored
`fa`, then extractor `de`, then extractor `fa`) yields the authored `"X"`,
but the code resolves to the extractor's `"E"`, and the built asset exposes
`"E"`. -/
theorem resolvedPseudo_claim_counterexample :
    claimedResolvedPseudo .de ⟨str "E", []⟩
        ⟨str "v", some ⟨some (str "v"), none, false, some ⟨some [], some (str "X")⟩, none⟩, none⟩
      = str "X"
    ∧ resolvedPseudo .de ⟨str "E", []⟩
        ⟨str "v", some ⟨some (str "v"), none, false, some ⟨some [], some (str "X")⟩, none⟩, none⟩
      = str "E"
    ∧ (buildPseudocodeAsset (str "t") .de (str "T")
        [⟨str "v", some ⟨some (str "v"), none, false, some ⟨some [], some (str "X")⟩, none⟩, none⟩]
        ⟨str "E", []⟩).map (fun a => a.pseudocode) = some (str "E")
    ∧ str "X" ≠ str "E" :=
  ⟨by decide, by decide, by decide, by decide⟩

/-! ### The pseudocode asset builder (C3, C9) -/

theorem selectedOf_eq_none_iff (entries : List VariantEntry) :
    selectedOf entries = none ↔ entries = [] := by
  cases entries with
  | nil => simp [selectedOf, Option.orElse]
  | cons e es =>
    simp only [selectedOf]
    cases h : (e :: es).find? (fun x => x.is_default) with
    | none => simp [h, Option.orElse]
    | some d => simp [h, Option.orElse]

theorem selectedOf_mem (entries : List VariantEntry) (sel : VariantEntry)
    (h : selectedOf entries = some sel) : sel ∈ entries := by
  simp only [selectedOf] at h
  cases hfind : entries.find? (fun e => e.is_default) with
  | some d =>
    rw [hfind] at h
    simp only [Option.orElse] at h
    obtain rfl := Option.some.inj h
    exact List.mem_of_find?_eq_some hfind
  | none =>
    rw [hfind] at h
    simp only [Option.orElse] at h
    cases entries with
    | nil => simp at h
    | cons x xs =>
      obtain rfl : x = sel := Option.some.inj h
      exact List.mem_cons_self _ _

theorem variantEntryOf_isSome_iff (lang : Lang) (fb : LocText) (r : MergedRecord)
    (h : r.id ≠ []) :
    (variantEntryOf lang fb r).isSome ↔ resolvedPseudo lang fb r ≠ [] := by
  simp only [variantEntryOf]
  rw [if_neg (by simpa [List.isEmpty_iff] using h)]
  by_cases hp : (resolvedPseudo lang fb r).isEmpty = true
  · rw [if_pos hp]
    simp [List.isEmpty_iff.mp hp]
  · rw [if_neg hp]
    simp only [Option.isSome_some, true_iff]
    exact fun hc => hp (List.isEmpty_iff.mpr hc)

theorem variantEntryOf_fields (lang : Lang) (fb : LocText) (r : MergedRecord)
    (e : VariantEntry) (h : variantEntryOf lang fb r = some e) :
    e.pseudocode = resolvedPseudo lang fb r ∧ e.id = r.id
      ∧ resolvedPseudo lang fb r ≠ [] := by
  simp only [variantEntryOf] at h
  by_cases h1 : (r.id).isEmpty = true
  · rw [if_pos h1] at h
    cases h
  · rw [if_neg h1] at h
    by_cases h2 : (resolvedPseudo lang fb r).isEmpty = true
    · rw [if_pos h2] at h
      cases h
    · rw [if_neg h2] at h
      obtain rfl := Option.some.inj h
      exact ⟨rfl, rfl, fun hc => h2 (List.isEmpty_iff.mpr hc)⟩

theorem mem_pseudoEntries_pseudocode_ne_nil (lang : Lang)
    (mv : List MergedRecord) (fb : LocText) (v : VariantEntry)
    (hv : v ∈ pseudoEntries lang mv fb) : v.pseudocode ≠ [] := by
  simp only [pseudoEntries] at hv
  by_cases hVE : (mv.filterMap (variantEntryOf lang fb)).isEmpty = true
  · rw [if_pos hVE] at hv
    by_cases hDF : (directFallback lang fb).isEmpty = true
    · rw [if_pos hDF] at hv
      simp at hv
    · rw [if_neg hDF] at hv
      rcases List.mem_singleton.mp hv with rfl
      simp only [defaultVariantEntry]
      intro hc
      exact hDF (by rw [hc]; rfl)
  · rw [if_neg hVE] at hv
    rcases List.mem_filterMap.mp hv with ⟨r, _, he⟩
    have hf := variantEntryOf_fields lang fb r v he
    rw [hf.1]
    exact hf.2.2

theorem pseudoEntries_of_asset_some (topic : Str) (lang : Lang) (title : Str)
    (mv : List MergedRecord) (fb : LocText) (a : PseudocodeAsset)
    (h : buildPseudocodeAsset topic lang title mv fb = some a) :
    ∃ sel, selectedOf (pseudoEntries lang mv fb) = some sel
      ∧ a = ⟨topic, lang, title, sel.id, sel.pseudocode, pseudoEntries lang mv fb⟩ := by
  simp only [buildPseudocodeAsset] at h
  cases hsel : selectedOf (pseudoEntries lang mv fb) with
  | none => rw [hsel] at h; cases h
  | some sel =>
    rw [hsel] at h
    exact ⟨sel, rfl, (Option.some.inj h).symm⟩

/-- C3: the builder keeps exactly the merged variants whose resolved
pseudocode is non-empty; with zero survivors it synthesizes the single
`"default"` entry from the direct fallback; it returns `none` exactly when
the survivors are none and even that fallback is empty; otherwise the
asset lists all surviving entries and its `selected_variant` /
top-level `pseudocode` come from the first entry marked default, or the
first entry when none is marked. -/
theorem buildPseudocodeAsset_spec (topic : Str) (lang : Lang) (title : Str)
    (mv : List MergedRecord) (fb : LocText)
    (hids : ∀ r ∈ mv, r.id ≠ []) :
    (∀ r ∈ mv, (variantEntryOf lang fb r).isSome ↔ resolvedPseudo lang fb r ≠ [])
    ∧ (buildPseudocodeAsset topic lang title mv fb = none
        ↔ mv.filterMap (variantEntryOf lang fb) = [] ∧ directFallback lang fb = [])
    ∧ (∀ a, buildPseudocodeAsset topic lang title mv fb = some a →
        (a.variants =
            if mv.filterMap (variantEntryOf lang fb) = []
            then [defaultVariantEntry (directFallback lang fb)]
            else mv.filterMap (variantEntryOf lang fb))
        ∧ (match a.variants.find? (fun e => e.is_default) with
           | some d => a.selected_variant = d.id ∧ a.pseudocode = d.pseudocode
           | none => ∃ e es, a.variants = e :: es ∧ a.selected_variant = e.id
               ∧ a.pseudocode = e.pseudocode)) := by
  have hentries_nil : pseudoEntries lang mv fb = []
      ↔ mv.filterMap (variantEntryOf lang fb) = [] ∧ directFallback lang fb = [] := by
    simp only [pseudoEntries]
    by_cases hVE : (mv.filterMap (variantEntryOf lang fb)).isEmpty = true
    · rw [if_pos hVE]
      have hVE' := List.isEmpty_iff.mp hVE
      by_cases hDF : (directFallback lang fb).isEmpty = true
      · simp [if_pos hDF, hVE', List.isEmpty_iff.mp hDF]
      · rw [if_neg hDF]
        simp only [hVE', true_and]
        constructor
        · intro hc; cases hc
        · intro hc; exact absurd (List.isEmpty_iff.mpr hc) hDF
    · rw [if_neg hVE]
      have hVE' := fun hc => hVE (List.isEmpty_iff.mpr hc)
      constructor
      · intro hc; exact absurd hc hVE'
      · rintro ⟨hc, _⟩; exact absurd hc hVE'
  refine ⟨fun r hr => variantEntryOf_isSome_iff lang fb r (hids r hr), ?_, ?_⟩
  · constructor
    · intro h
      have : selectedOf (pseudoEntries lang mv fb) = none := by
        simp only [buildPseudocodeAsset] at h
        cases hsel : selectedOf (pseudoEntries lang mv fb) with
        | none => rfl
        | some sel => rw [hsel] at h; cases h
      exact hentries_nil.mp ((selectedOf_eq_none_iff _).mp this)
    · intro h
      have hnil : pseudoEntries lang mv fb = [] := hentries_nil.mpr h
      simp only [buildPseudocodeAsset, hnil]
      rfl
  · intro a ha
    rcases pseudoEntries_of_asset_some topic lang title mv fb a ha with ⟨sel, hsel, rfl⟩
    have hvars : pseudoEntries lang mv fb =
        if mv.filterMap (variantEntryOf lang fb) = []
        then [defaultVariantEntry (directFallback lang fb)]
        else mv.filterMap (variantEntryOf lang fb) := by
      simp only [pseudoEntries]
      by_cases hVE : (mv.filterMap (variantEntryOf lang fb)).isEmpty = true
      · have hVE' := List.isEmpty_iff.mp hVE
        rw [if_pos hVE, if_pos hVE']
        by_cases hDF : (directFallback lang fb).isEmpty = true
        · exfalso
          have hnil : pseudoEntries lang mv fb = [] := by
            simp only [pseudoEntries]
            rw [if_pos hVE, if_pos hDF]
          rw [hnil] at hsel
          cases (selectedOf_eq_none_iff []).mpr rfl ▸ hsel
        · rw [if_neg hDF]
      · rw [if_neg hVE, if_neg (fun hc => hVE (List.isEmpty_iff.mpr hc))]
    refine ⟨hvars, ?_⟩
    simp only
    cases hfind : (pseudoEntries lang mv fb).find? (fun e => e.is_default) with
    | some d =>
      have : selectedOf (pseudoEntries lang mv fb) = some d := by
        simp only [selectedOf, hfind, Option.orElse]
      rw [this] at hsel
      obtain rfl := Option.some.inj hsel
      exact ⟨rfl, rfl⟩
    | none =>
      have hhead : (pseudoEntries lang mv fb).head? = some sel := by
        simp only [selectedOf, hfind, Option.orElse] at hsel
        exact hsel
      cases hent : pseudoEntries lang mv fb with
      | nil => rw [hent] at hhead; cases hhead
      | cons e es =>
        rw [hent] at hhead
        obtain rfl := Option.some.inj hhead
        exact ⟨e, es, rfl, rfl, rfl⟩

/-- C3 witness at a concrete input: no merged variants and an empty
extractor pair make the builder return `none`. -/
theorem buildPseudocodeAsset_spec_witness :
    buildPseudocodeAsset (str "t") .de (str "T") [] ⟨[], []⟩ = none ↔
      ([] : List MergedRecord).filterMap (variantEntryOf .de ⟨[], []⟩) = []
        ∧ directFallback .de ⟨[], []⟩ = [] :=
  (buildPseudocodeAsset_spec (str "t") .de (str "T") [] ⟨[], []⟩ (by decide)).2.1

/-- C9: every asset the pseudocode builder returns is internally
consistent: non-empty variant list, every listed variant with non-empty
pseudocode text, and `selected_variant` / top-level `pseudocode` equal to
the id and text of some listed variant. -/
theorem buildPseudocodeAsset_wellformed (topic : Str) (lang : Lang) (title : Str)
    (mv : List MergedRecord) (fb : LocText) (a : PseudocodeAsset)
    (h : buildPseudocodeAsset topic lang title mv fb = some a) :
    a.variants ≠ []
    ∧ (∀ v ∈ a.variants, v.pseudocode ≠ [])
    ∧ ∃ v ∈ a.variants, a.selected_variant = v.id ∧ a.pseudocode = v.pseudocode := by
  rcases pseudoEntries_of_asset_some topic lang title mv fb a h with ⟨sel, hsel, rfl⟩
  refine ⟨?_, ?_, ?_⟩
  · intro hc
    simp only at hc
    rw [hc] at hsel
    cases (selectedOf_eq_none_iff []).mpr rfl ▸ hsel
  · intro v hv
    exact mem_pseudoEntries_pseudocode_ne_nil lang mv fb v hv
  · exact ⟨sel, selectedOf_mem _ _ hsel, rfl, rfl⟩

/-- C9 witness at a concrete input: the synthesized-default asset built from
an extractor fallback only. -/
theorem buildPseudocodeAsset_wellformed_witness :
    (⟨str "t", .de, str "T", str "default", str "F",
        [defaultVariantEntry (str "F")]⟩ : PseudocodeAsset).variants ≠ []
    ∧ (∀ v ∈ (⟨str "t", .de, str "T", str "default", str "F",
        [defaultVariantEntry (str "F")]⟩ : PseudocodeAsset).variants, v.pseudocode ≠ [])
    ∧ ∃ v ∈ (⟨str "t", .de, str "T", str "default", str "F",
        [defaultVariantEntry (str "F")]⟩ : PseudocodeAsset).variants,
        (⟨str "t", .de, str "T", str "default", str "F",
          [defaultVariantEntry (str "F")]⟩ : PseudocodeAsset).selected_variant = v.id
        ∧ (⟨str "t", .de, str "T", str "default", str "F",
            [defaultVariantEntry (str "F")]⟩ : PseudocodeAsset).pseudocode = v.pseudocode :=
  buildPseudocodeAsset_wellformed (str "t") .de (str "T") [] ⟨str "F", []⟩ _ (by decide)

/-! ### Explain section ordering (C4) -/

theorem byId_lookup (sections : List IndexedSection) (i : Str) :
    (sections.foldl (fun m p =>
        match p.2.id with
        | some k => mapSet m k p
        | none => m) mapEmpty) i = lastWithId sections i := by
  induction sections using List.reverseRecOn with
  | nil => rfl
  | append_singleton l p ih =>
    rw [List.foldl_append]
    simp only [List.foldl_cons, List.foldl_nil]
    unfold lastWithId
    rw [List.reverse_append]
    simp only [List.reverse_singleton, List.singleton_append]
    cases hid : p.2.id with
    | none =>
      rw [List.find?_cons_of_neg _ (by simp [hid])]
      exact ih
    | some k =>
      by_cases hk : k = i
      · subst hk
        rw [List.find?_cons_of_pos _ (by simp [hid])]
        simp [mapSet]
      · rw [List.find?_cons_of_neg _ (by simp [hid, hk])]
        simp only [mapSet]
        rw [if_neg (fun hc => hk hc.symm)]
        exact ih

theorem foldl_appendIfNew {α : Type} [DecidableEq α] (l init : List α)
    (hl : l.Nodup) :
    l.foldl (fun acc p => if acc.any (fun q => q = p) then acc else acc ++ [p]) init
      = init ++ l.filter (fun p => !init.any (fun q => q = p)) := by
  induction l generalizing init with
  | nil => simp
  | cons p l ih =>
    rcases List.nodup_cons.mp hl with ⟨hp, hl2⟩
    simp only [List.foldl_cons, List.filter_cons]
    by_cases hmem : init.any (fun q => q = p) = true
    · rw [if_pos hmem, if_neg (by rw [hmem]; simp)]
      exact ih init hl2
    · have hfalse : init.any (fun q => decide (q = p)) = false := by
        cases hany : init.any (fun q => decide (q = p))
        · rfl
        · exact absurd hany hmem
      rw [if_neg hmem, if_pos (by rw [hfalse]; rfl)]
      rw [ih (init ++ [p]) hl2]
      have hfil : l.filter (fun q => !(init ++ [p]).any (fun r => r = q))
          = l.filter (fun q => !init.any (fun r => r = q)) := by
        apply List.filter_congr
        intro q hq
        have hqp : ¬ (p = q) := fun hc => hp (hc ▸ hq)
        simp [List.any_append, hqp]
      rw [hfil]
      simp [List.append_assoc]

theorem nodup_enum {α : Type} (l : List α) : l.enum.Nodup := by
  have h2 : (l.enum.map Prod.fst).Nodup := by
    rw [List.enum_map_fst]
    exact List.nodup_range _
  exact h2.of_map

/-- C4: the source's section ordering equals the spec-side formulation: with
a usable `sections_order`, the sections the order list places (each id
resolving to the last section carrying it, unmatched ids silently skipped),
in order-list order, followed by every section not so placed, in original
document order; with no usable order list, the original order.  Identity
tags (positions) stand for JS object references. -/
theorem getExplainSectionsInOrder_spec (doc : ExplainDoc) :
    getExplainSectionsInOrderIdx doc = specOrderedSectionsIdx doc
    ∧ getExplainSectionsInOrder doc = (specOrderedSectionsIdx doc).map (fun p => p.2)
    ∧ (usableOrder doc = [] → getExplainSectionsInOrder doc = objectSections doc) := by
  have hmain : getExplainSectionsInOrderIdx doc = specOrderedSectionsIdx doc := by
    cases hsec : doc.sections with
    | none =>
      simp only [getExplainSectionsInOrderIdx, hsec, specOrderedSectionsIdx,
        objectSections, placedSections, lastWithId, Option.getD_none,
        List.filterMap_nil]
      by_cases ho : usableOrder doc = []
      · rw [if_pos ho]
        simp
      · rw [if_neg ho]
        simp
    | some raw =>
      simp only [getExplainSectionsInOrderIdx, hsec]
      have hobj : objectSections doc = raw.filterMap (fun s => s) := by
        simp [objectSections, hsec]
      have hord : (doc.sections_order.getD []).filterMap (fun s => s) = usableOrder doc := rfl
      rw [hord]
      by_cases ho : usableOrder doc = []
      · rw [if_pos (by simp [ho]), specOrderedSectionsIdx, if_pos ho, hobj]
      · rw [if_neg (by simp [ho]), specOrderedSectionsIdx, if_neg ho]
        have hplaced : (usableOrder doc).filterMap
            (fun i => mapGet ((raw.filterMap (fun s => s)).enum.foldl (fun m p =>
              match p.2.id with
              | some k => mapSet m k p
              | none => m) mapEmpty) i) = placedSections doc := by
          simp only [placedSections, hobj]
          apply List.filterMap_congr
          intro i _
          exact byId_lookup ((raw.filterMap (fun s => s)).enum) i
        rw [foldl_appendIfNew _ _ (nodup_enum _), hplaced, hobj]
  refine ⟨hmain, by rw [getExplainSectionsInOrder, hmain], ?_⟩
  intro ho
  rw [getExplainSectionsInOrder, hmain, specOrderedSectionsIdx, if_pos ho,
    List.enum_map_snd]

/-! ### The explain summary (C7) -/

/-- C7: the explain asset's `summary` is the first non-empty (after
trimming) of: the body of the section whose id is exactly `"definition"`
(located in the output section order), the text of the asset's first
surviving block, and the document's `audience` field; and it is the empty
string exactly when every one of those candidates is missing or
trims to empty. -/
theorem buildExplainAsset_summary (topic : Str) (lang : Lang) (title : Str)
    (doc : ExplainDoc) :
    (buildExplainAsset topic lang title doc).summary =
      firstNonEmptyString
        [((getExplainSectionsInOrder doc).find?
            (fun s => s.id = some (str "definition"))).bind (fun s => s.body),
         ((buildExplainAsset topic lang title doc).blocks.head?).map (fun b => b.text),
         doc.audience]
    ∧ ((buildExplainAsset topic lang title doc).summary = [] ↔
        ∀ s : Str,
          some s ∈ [((getExplainSectionsInOrder doc).find?
              (fun t => t.id = some (str "definition"))).bind (fun t => t.body),
            ((buildExplainAsset topic lang title doc).blocks.head?).map (fun b => b.text),
            doc.audience] → strTrim s = []) := by
  refine ⟨rfl, ?_⟩
  exact firstNonEmptyString_eq_nil_iff
    [((getExplainSectionsInOrder doc).find?
        (fun t => t.id = some (str "definition"))).bind (fun t => t.body),
     ((buildExplainAsset topic lang title doc).blocks.head?).map (fun b => b.text),
     doc.audience]

/-! ### The exam asset builder (C5, C10) -/

/-- C5: the exam asset's questions are exactly the raw questions mapped by
`mapExamQuestion` with the id-less or prompt-less ones dropped (a
permutation of that filtered list), sorted non-decreasingly by id; and the
mapping produces `type = "mc"` exactly for a non-empty `choices` array,
`prompt` as the first non-empty of task/prompt, `answer` as the first
non-empty of answer/expected/solution, and populates only the asset
language's explanation field, the other language's one being always empty. -/
theorem buildExamAsset_spec (topic : Str) (lang : Lang) (title : Str)
    (examDoc : Option ExamDoc) :
    ((buildExamAsset topic lang title examDoc).questions).Perm
        ((((examDoc.bind (fun d => d.questions)).getD []).map
            (fun q => mapExamQuestion q lang)).filter
          (fun q => !q.id.isEmpty && !q.prompt.isEmpty))
    ∧ List.Sorted qIdLe (buildExamAsset topic lang title examDoc).questions
    ∧ (∀ q ∈ (buildExamAsset topic lang title examDoc).questions,
        q.id ≠ [] ∧ q.prompt ≠ [])
    ∧ (∀ q : Option ExamQuestion,
        ((mapExamQuestion q lang).type = str "mc"
            ↔ ∃ cs, q.bind (fun x => x.choices) = some cs ∧ cs ≠ [])
        ∧ ((mapExamQuestion q lang).type = str "mc" ∨
            (mapExamQuestion q lang).type = str "open"))
    ∧ (∀ q : Option ExamQuestion,
        (mapExamQuestion q lang).prompt
            = firstNonEmptyString [q.bind (fun x => x.task), q.bind (fun x => x.prompt)]
        ∧ (mapExamQuestion q lang).answer
            = firstNonEmptyString [q.bind (fun x => x.answer), q.bind (fun x => x.expected),
                q.bind (fun x => x.solution)]
        ∧ (mapExamQuestion q lang).id = firstNonEmptyString [q.bind (fun x => x.id)])
    ∧ (∀ q : Option ExamQuestion,
        (lang = .de → (mapExamQuestion q lang).explain_fa = []
            ∧ (mapExamQuestion q lang).explain_de
              = firstNonEmptyString [q.bind (fun x => x.solution),
                  q.bind (fun x => x.expected)])
        ∧ (lang = .fa → (mapExamQuestion q lang).explain_de = []
            ∧ (mapExamQuestion q lang).explain_fa
              = firstNonEmptyString [q.bind (fun x => x.solution),
                  q.bind (fun x => x.expected)])) := by
  refine ⟨?_, ?_, ?_, ?_, ?_, ?_⟩
  · exact List.perm_insertionSort qIdLe _
  · exact List.sorted_insertionSort qIdLe _
  · intro q hq
    have hq2 : q ∈ (((examDoc.bind (fun d => d.questions)).getD []).map
        (fun q => mapExamQuestion q lang)).filter
          (fun q => !q.id.isEmpty && !q.prompt.isEmpty) :=
      (List.perm_insertionSort qIdLe _).mem_iff.mp hq
    have hcond := (List.mem_filter.mp hq2).2
    rw [Bool.and_eq_true, Bool.not_eq_true', Bool.not_eq_true'] at hcond
    constructor
    · intro hc
      rw [hc] at hcond
      simp at hcond
    · intro hc
      rw [hc] at hcond
      simp at hcond
  · intro q
    cases hch : q.bind (fun x => x.choices) with
    | none =>
      have htype : (mapExamQuestion q lang).type = str "open" := by
        simp [mapExamQuestion, hch]
      refine ⟨?_, Or.inr htype⟩
      rw [htype]
      constructor
      · intro hc
        exact absurd hc (by decide)
      · rintro ⟨cs, hcs, _⟩
        cases hcs
    | some cs =>
      cases cs with
      | nil =>
        have htype : (mapExamQuestion q lang).type = str "open" := by
          simp [mapExamQuestion, hch]
        refine ⟨?_, Or.inr htype⟩
        rw [htype]
        constructor
        · intro hc
          exact absurd hc (by decide)
        · rintro ⟨cs2, hcs, hne⟩
          cases Option.some.inj hcs
          exact absurd rfl hne
      | cons c cs =>
        have htype : (mapExamQuestion q lang).type = str "mc" := by
          simp [mapExamQuestion, hch]
        refine ⟨?_, Or.inl htype⟩
        rw [htype]
        constructor
        · intro _
          exact ⟨c :: cs, rfl, by simp⟩
        · intro _
          rfl
  · intro q
    exact ⟨rfl, rfl, rfl⟩
  · intro q
    constructor
    · rintro rfl
      exact ⟨rfl, rfl⟩
    · rintro rfl
      exact ⟨rfl, rfl⟩

/-- C10: a generated exam question carries a `choices` field exactly when
its type is `"mc"`, and then it is the raw question's `choices` array
unchanged. -/
theorem mapExamQuestion_choices (q : Option ExamQuestion) (lang : Lang) :
    ((mapExamQuestion q lang).choices.isSome ↔ (mapExamQuestion q lang).type = str "mc")
    ∧ (mapExamQuestion q lang).choices
        = (if (mapExamQuestion q lang).type = str "mc"
           then q.bind (fun x => x.choices) else none) := by
  cases hch : q.bind (fun x => x.choices) with
  | none =>
    have htype : (mapExamQuestion q lang).type = str "open" := by
      simp [mapExamQuestion, hch]
    have hcho : (mapExamQuestion q lang).choices = none := by
      simp [mapExamQuestion, hch]
    rw [htype, hcho]
    refine ⟨?_, ?_⟩
    · constructor
      · intro hc
        simp at hc
      · intro hc
        exact absurd hc (by decide)
    · rw [if_neg (by decide)]
  | some cs =>
    cases cs with
    | nil =>
      have htype : (mapExamQuestion q lang).type = str "open" := by
        simp [mapExamQuestion, hch]
      have hcho : (mapExamQuestion q lang).choices = none := by
        simp [mapExamQuestion, hch]
      rw [htype, hcho]
      refine ⟨?_, ?_⟩
      · constructor
        · intro hc
          simp at hc
        · intro hc
          exact absurd hc (by decide)
      · rw [if_neg (by decide)]
    | cons c cs =>
      have htype : (mapExamQuestion q lang).type = str "mc" := by
        simp [mapExamQuestion, hch]
      have hcho : (mapExamQuestion q lang).choices = some (c :: cs) := by
        simp [mapExamQuestion, hch]
      rw [htype, hcho]
      refine ⟨?_, ?_⟩
      · simp
      · rw [if_pos rfl]

/-! ### The topic index generator (C6) -/

theorem any_eq_mem_str (acc : List Str) (a : Str) :
    (acc.any (fun x => x = a)) = true ↔ a ∈ acc := by
  simp [List.any_eq_true]

theorem topicsFold_eq_dedup (fileNames : List Str) (acc : List Str) :
    fileNames.foldl (fun acc name =>
        match extractTuple name with
        | some t => if acc.any (fun x => x = t.1) then acc else acc ++ [t.1]
        | none => acc) acc
      = acc ++ dedupFirstFrom acc
          (fileNames.filterMap (fun n => (extractTuple n).map (fun t => t.1))) := by
  induction fileNames generalizing acc with
  | nil => simp [dedupFirstFrom]
  | cons name names ih =>
    simp only [List.foldl_cons, List.filterMap_cons]
    cases h : extractTuple name with
    | none =>
      simp only [h, Option.map_none']
      rw [ih]
    | some t =>
      simp only [h, Option.map_some']
      simp only [dedupFirstFrom]
      by_cases hmem : t.1 ∈ acc
      · rw [if_pos ((any_eq_mem_str acc t.1).mpr hmem), ih, if_pos hmem]
      · rw [if_neg (fun hc => hmem ((any_eq_mem_str acc t.1).mp hc)), ih, if_neg hmem]
        simp [List.append_assoc]

/-- C6: the generated `topics` field is sorted, duplicate-free, and contains
a topic exactly when some file name parses to a tuple with that topic; a
name parses exactly when it splits into exactly four dot-separated
non-empty components, the fourth equal to `"json"`. -/
theorem generatedTopicsField_spec (fileNames : List Str) :
    List.Sorted (fun a b : Str => a ≤ b) (generatedTopicsField fileNames)
    ∧ (generatedTopicsField fileNames).Nodup
    ∧ (∀ t : Str, t ∈ generatedTopicsField fileNames
        ↔ ∃ name ∈ fileNames, ∃ l m, extractTuple name = some (t, l, m))
    ∧ (∀ name t l m : Str, extractTuple name = some (t, l, m)
        ↔ splitOnDot name = [t, l, m, str "json"]
          ∧ t ≠ [] ∧ l ≠ [] ∧ m ≠ []) := by
  have hfold : generatedTopicsField fileNames =
      List.insertionSort (fun a b : Str => a ≤ b)
        (dedupFirst (fileNames.filterMap (fun n => (extractTuple n).map (fun t => t.1)))) := by
    simp only [generatedTopicsField, dedupFirst]
    rw [topicsFold_eq_dedup]
    simp
  refine ⟨?_, ?_, ?_, ?_⟩
  · exact List.sorted_insertionSort _ _
  · rw [hfold]
    exact ((List.perm_insertionSort _ _).nodup_iff).mpr (nodup_dedupFirstFrom _ _)
  · intro t
    rw [hfold]
    rw [(List.perm_insertionSort (fun a b : Str => a ≤ b) _).mem_iff]
    simp only [dedupFirst]
    rw [mem_dedupFirstFrom]
    simp only [List.not_mem_nil, not_false_iff, and_true, List.mem_filterMap]
    constructor
    · rintro ⟨name, hname, hmap⟩
      cases hx : extractTuple name with
      | none => rw [hx] at hmap; cases hmap
      | some tup =>
        rw [hx] at hmap
        simp only [Option.map_some'] at hmap
        obtain rfl : tup.1 = t := Option.some.inj hmap
        exact ⟨name, hname, tup.2.1, tup.2.2, by rw [hx]⟩
    · rintro ⟨name, hname, l, m, hx⟩
      exact ⟨name, hname, by rw [hx]; rfl⟩
  · intro name t l m
    constructor
    · intro h
      rcases hsplit : splitOnDot name with
          _ | ⟨a, (_ | ⟨b, (_ | ⟨c, (_ | ⟨d, (_ | ⟨e, rest⟩)⟩)⟩)⟩)⟩ <;>
        simp only [extractTuple, hsplit] at h <;>
        try exact Option.noConfusion h
      by_cases hcond : a = [] ∨ b = [] ∨ c = [] ∨ d ≠ str "json"
      · rw [if_pos hcond] at h
        cases h
      · rw [if_neg hcond] at h
        obtain ⟨rfl, rfl, rfl⟩ : a = t ∧ b = l ∧ c = m := by
          have := Option.some.inj h
          exact ⟨congrArg Prod.fst this,
            congrArg Prod.fst (congrArg Prod.snd this),
            congrArg Prod.snd (congrArg Prod.snd this)⟩
        push_neg at hcond
        exact ⟨by rw [hcond.2.2.2], hcond.1, hcond.2.1, hcond.2.2.1⟩
    · rintro ⟨hs, ht, hl, hm⟩
      simp only [extractTuple, hs]
      rw [if_neg (by push_neg; exact ⟨ht, hl, hm, rfl⟩)]

/-! ### Tolerant content reads (C8) -/

/-- C8: content reads are total with failure collapsed to absence: a read
error makes `readJsonIfExists` return `none`, a parse failure does too
(indistinguishably), and it returns a document exactly when the read and the
parse both succeed; the legacy pseudocode extractor returns the empty pair
when the module read fails, and the empty string for a language whenever the
pattern does not match. -/
theorem contentReads_total :
    (∀ (α : Type) (e : Str) (parse : Str → Except Str α),
        readJsonIfExists (.error e) parse = none)
    ∧ (∀ (α : Type) (raw : Str) (parse : Str → Except Str α) (e : Str),
        parse raw = .error e → readJsonIfExists (.ok raw) parse = none)
    ∧ (∀ (α : Type) (rf : Except Str Str) (parse : Str → Except Str α) (d : α),
        readJsonIfExists rf parse = some d
          ↔ ∃ raw, rf = .ok raw ∧ parse raw = .ok d)
    ∧ (∀ (rm : Str → Str → Option (Option Str)) (e : Str),
        readTopicPseudocodeFallback rm (.error e) = ⟨[], []⟩)
    ∧ (∀ (rm : Str → Str → Option (Option Str)) (source fn : Str),
        rm source fn = none → extractPythonFunctionReturn rm source fn = []) := by
  refine ⟨fun α e parse => rfl, ?_, ?_, fun rm e => rfl, ?_⟩
  · intro α raw parse e h
    simp [readJsonIfExists, h]
  · intro α rf parse d
    cases rf with
    | error e => simp [readJsonIfExists]
    | ok raw =>
      cases hp : parse raw with
      | error e => simp [readJsonIfExists, hp]
      | ok x => simp [readJsonIfExists, hp]
  · intro rm source fn h
    simp [extractPythonFunctionReturn, h]

end TutorWorker
